import Mathlib

/-!
Verification of the Grover search simulator
(`src/models/quantum_algorithms.py`).

The simulator evolves an explicit state vector of `N = 2^n` complex
amplitudes: it is initialized to the uniform superposition `1/√N`, the
oracle negates the amplitudes of marked indices, the diffuser replaces
every amplitude `a` by `2·mean − a`, and measurement is a deterministic
argmax over the probabilities `|a|²`.

Representation used here: every amplitude that arises is of the form
`q/√N` with `q` a Gaussian rational, because the initial amplitudes are
`1/√N` and both operators (a sign flip, and the affine map
`a ↦ 2·mean − a`) preserve that form.  State vectors are therefore stored
scaled by `√N`: a stored entry `a : Amp` represents the amplitude
`(a.re + a.im·i)/√N`.  Both operators commute with this global scaling,
so the scaled vectors evolve by exactly the formulas of the source, with
exact rational arithmetic standing in for the source's floating point;
the probability of index `i` is `(a.re² + a.im²)/N`.

Python's dynamically typed arguments are embedded as follows: a numeric
argument that must be an `int` is taken in `ℚ`, with `q.den = 1`
playing the role of `isinstance(q, int)`; the `oracle_function` argument,
which must be callable, is an `OracleArg` that is either a function or
the non-callable marker.  `ValueError` and `TypeError` (both covered by
the spec's `InvalidArgument`) are the constructors of `GroverError`.
-/

namespace QuantumAgri

/-- A complex amplitude with exact rational components (scaled by `√N`,
see the module docstring). -/
@[ext]
structure Amp where
  re : ℚ
  im : ℚ
deriving DecidableEq, Repr

namespace Amp

instance : Neg Amp where
  neg a := ⟨-a.re, -a.im⟩

@[simp] theorem neg_re (a : Amp) : (-a).re = -a.re := rfl

@[simp] theorem neg_im (a : Amp) : (-a).im = -a.im := rfl

/-- Squared modulus of the stored (scaled) amplitude. -/
def absSq (a : Amp) : ℚ := a.re ^ 2 + a.im ^ 2

@[simp] theorem absSq_neg (a : Amp) : (-a).absSq = a.absSq := by
  simp [absSq]

end Amp

/-- The two exception classes raised by the source (`ValueError`,
`TypeError`); the spec's `InvalidArgument` covers both. -/
inductive GroverError
  | valueError
  | typeError
deriving DecidableEq, Repr

/-- The `oracle_function` argument of `Grover.__init__`: either a
callable (a function from a basis-state index to a boolean) or some
non-callable object. -/
inductive OracleArg
  | callableFn (f : ℕ → Bool)
  | nonCallable

/-- The `Grover` object: `num_qubits`, `num_states = 2**num_qubits`, the
caller-supplied marking predicate, and the mutable state vector (stored
scaled by `√num_states`). -/
structure Grover where
  num_qubits : ℕ
  num_states : ℕ
  oracle_function : ℕ → Bool
  state_vector : List Amp

/-- Embedding of `Grover._initial_state`: `np.full(num_states, 1/sqrt(num_states))`.
In the scaled representation every entry is `1`. -/
def initial_state (num_states : ℕ) : List Amp :=
  List.replicate num_states ⟨1, 0⟩

/-- Embedding of `Grover.__init__`: rejects a qubit count that is not a positive
integer (`ValueError`), then rejects a non-callable oracle
(`TypeError`), then sets `num_states = 2**num_qubits` and builds the
initial uniform state vector. -/
def Grover.init (num_qubits : ℚ) (oracle_function : OracleArg) :
    Except GroverError Grover :=
  if num_qubits.den ≠ 1 ∨ num_qubits ≤ 0 then
    .error .valueError
  else
    match oracle_function with
    | .nonCallable => .error .typeError
    | .callableFn f =>
        let n := num_qubits.num.toNat
        .ok ⟨n, 2 ^ n, f, initial_state (2 ^ n)⟩

/-- The loop body of `Grover._oracle`: for each index `i` (counting up
from the given start), negate the amplitude when `oracle_function i` is
true. -/
def oracleGo (f : ℕ → Bool) : ℕ → List Amp → List Amp
  | _, [] => []
  | i, a :: rest => (if f i then -a else a) :: oracleGo f (i + 1) rest

/-- Embedding of `Grover._oracle`: negate the amplitudes of all marked indices,
scanning indices `0, 1, …` over the state vector. -/
def Grover.oracle (f : ℕ → Bool) (v : List Amp) : List Amp :=
  oracleGo f 0 v

/-- Embedding of `Grover._diffuser`: inversion about the mean.  `np.mean` of a
complex vector is the componentwise arithmetic mean; every amplitude `a`
becomes `2·mean − a`. -/
def Grover.diffuser (v : List Amp) : List Amp :=
  v.map fun a =>
    ⟨2 * ((v.map Amp.re).sum / (v.length : ℚ)) - a.re,
     2 * ((v.map Amp.im).sum / (v.length : ℚ)) - a.im⟩

/-- One Grover iteration as performed by the loop in
`Grover.run_algorithm`: the oracle, then the diffuser, on the same
vector. -/
def grover_step (f : ℕ → Bool) (v : List Amp) : List Amp :=
  Grover.diffuser (Grover.oracle f v)

/-- Embedding of `Grover.get_probabilities`: `|amplitude_i|²` for every index.  In
the scaled representation this is `absSq a / num_states`. -/
def Grover.get_probabilities (g : Grover) : List ℚ :=
  g.state_vector.map fun a => a.absSq / (g.num_states : ℚ)

/-- Embedding of `np.argmax`: index of the first maximum entry (ties broken by the
lowest index); `0` on the empty list. -/
def argmax : List ℚ → ℕ
  | [] => 0
  | x :: rest => if rest.all (fun y => decide (y ≤ x)) then 0 else argmax rest + 1

/-- The optimal iteration count of `Grover.run_algorithm`:
`int(np.floor(np.pi / 4 * np.sqrt(num_states)))`. -/
noncomputable def optimal_iterations (num_states : ℕ) : ℕ :=
  ⌊Real.pi / 4 * Real.sqrt (num_states : ℝ)⌋₊

/-- The body of `Grover.run_algorithm` after validation: apply
`k` oracle-then-diffuser iterations to the state vector, then return the
argmax of the resulting probability distribution together with the
updated object. -/
def Grover.run_exact (g : Grover) (k : ℕ) : ℕ × Grover :=
  let g2 : Grover :=
    { g with state_vector := (grover_step g.oracle_function)^[k] g.state_vector }
  (argmax g2.get_probabilities, g2)

/-- Embedding of `Grover.run_algorithm`: with `num_iterations` omitted (`none`) the
optimal count is used; a supplied count must be a non-negative integer,
otherwise `ValueError` is raised before any mutation.  The returned pair
is (result of the call, the object afterwards). -/
noncomputable def Grover.run_algorithm (g : Grover) (num_iterations : Option ℚ) :
    Except GroverError ℕ × Grover :=
  match num_iterations with
  | none =>
      (Except.ok (g.run_exact (optimal_iterations g.num_states)).1,
       (g.run_exact (optimal_iterations g.num_states)).2)
  | some q =>
      if q.den ≠ 1 ∨ q < 0 then
        (Except.error GroverError.valueError, g)
      else
        (Except.ok (g.run_exact q.num.toNat).1, (g.run_exact q.num.toNat).2)

/-- Embedding of `example_oracle_factory`: bound-checks the marked index against
`[0, num_total_items)` (`ValueError` otherwise) and returns the
predicate recognising exactly that index. -/
def example_oracle_factory (marked_item_index num_total_items : ℤ) :
    Except GroverError (ℕ → Bool) :=
  if ¬(0 ≤ marked_item_index ∧ marked_item_index < num_total_items) then
    .error .valueError
  else
    .ok fun current_state_index => (current_state_index : ℤ) == marked_item_index

/-! ### Helper lemmas: lengths and norms -/

theorem length_oracleGo (f : ℕ → Bool) (i : ℕ) (v : List Amp) :
    (oracleGo f i v).length = v.length := by
  induction v generalizing i with
  | nil => rfl
  | cons a rest ih => simp [oracleGo, ih]

theorem length_diffuser (v : List Amp) : (Grover.diffuser v).length = v.length := by
  simp [Grover.diffuser]

theorem length_grover_step (f : ℕ → Bool) (v : List Amp) :
    (grover_step f v).length = v.length := by
  rw [grover_step, length_diffuser, Grover.oracle, length_oracleGo]

theorem length_iterate_grover (f : ℕ → Bool) (k : ℕ) (v : List Amp) :
    ((grover_step f)^[k] v).length = v.length := by
  induction k with
  | zero => rfl
  | succ k ih => rw [Function.iterate_succ_apply', length_grover_step, ih]

/-- Sum of the squared moduli of the stored entries: `N` times the total
probability mass. -/
def sumAbsSq (v : List Amp) : ℚ := (v.map Amp.absSq).sum

theorem sum_map_add {α : Type} (l : List α) (f h : α → ℚ) :
    (l.map fun x => f x + h x).sum = (l.map f).sum + (l.map h).sum := by
  induction l with
  | nil => simp
  | cons a rest ih => simp [ih]; ring

theorem sum_map_div (l : List ℚ) (c : ℚ) :
    (l.map fun x => x / c).sum = l.sum / c := by
  induction l with
  | nil => simp
  | cons a rest ih => simp [ih, add_div]

theorem sum_map_reflect_sq (l : List ℚ) (c : ℚ) :
    (l.map fun x => (c - x) ^ 2).sum =
      (l.length : ℚ) * c ^ 2 - 2 * c * l.sum + (l.map fun x => x ^ 2).sum := by
  induction l with
  | nil => simp
  | cons a rest ih =>
      simp only [List.map_cons, List.sum_cons, List.length_cons, ih]
      push_cast
      ring

theorem sum_reflect (l : List ℚ) (hl : l ≠ []) :
    (l.map fun x => (2 * (l.sum / (l.length : ℚ)) - x) ^ 2).sum
      = (l.map fun x => x ^ 2).sum := by
  have hn : (l.length : ℚ) ≠ 0 :=
    Nat.cast_ne_zero.mpr fun h => hl (List.length_eq_zero.mp h)
  rw [sum_map_reflect_sq]
  field_simp
  ring

theorem sumAbsSq_oracleGo (f : ℕ → Bool) (i : ℕ) (v : List Amp) :
    sumAbsSq (oracleGo f i v) = sumAbsSq v := by
  induction v generalizing i with
  | nil => rfl
  | cons a rest ih =>
      by_cases h : f i <;> simp [oracleGo, sumAbsSq, h, ih] at ih ⊢ <;> rw [ih]

theorem sumAbsSq_oracle (f : ℕ → Bool) (v : List Amp) :
    sumAbsSq (Grover.oracle f v) = sumAbsSq v :=
  sumAbsSq_oracleGo f 0 v

theorem sumAbsSq_split (v : List Amp) :
    sumAbsSq v = ((v.map Amp.re).map fun x => x ^ 2).sum
      + ((v.map Amp.im).map fun x => x ^ 2).sum := by
  rw [sumAbsSq, List.map_map, List.map_map]
  rw [show Amp.absSq = fun a : Amp => a.re ^ 2 + a.im ^ 2 from rfl]
  exact sum_map_add v (fun a => a.re ^ 2) (fun a => a.im ^ 2)

theorem sumAbsSq_diffuser (v : List Amp) :
    sumAbsSq (Grover.diffuser v) = sumAbsSq v := by
  rcases eq_or_ne v [] with rfl | hv
  · rfl
  · have hre : v.map Amp.re ≠ [] := by simpa using hv
    have him : v.map Amp.im ≠ [] := by simpa using hv
    rw [sumAbsSq_split v]
    rw [show sumAbsSq (Grover.diffuser v)
        = (v.map fun a : Amp =>
            (2 * ((v.map Amp.re).sum / (v.length : ℚ)) - a.re) ^ 2
            + (2 * ((v.map Amp.im).sum / (v.length : ℚ)) - a.im) ^ 2).sum by
      rw [sumAbsSq, Grover.diffuser, List.map_map]
      rfl]
    rw [sum_map_add]
    have h1 : (v.map fun a : Amp =>
        (2 * ((v.map Amp.re).sum / (v.length : ℚ)) - a.re) ^ 2).sum
        = ((v.map Amp.re).map fun x =>
            (2 * ((v.map Amp.re).sum / (((v.map Amp.re).length : ℕ) : ℚ)) - x) ^ 2).sum := by
      rw [List.map_map, List.length_map]
      rfl
    have h2 : (v.map fun a : Amp =>
        (2 * ((v.map Amp.im).sum / (v.length : ℚ)) - a.im) ^ 2).sum
        = ((v.map Amp.im).map fun x =>
            (2 * ((v.map Amp.im).sum / (((v.map Amp.im).length : ℕ) : ℚ)) - x) ^ 2).sum := by
      rw [List.map_map, List.length_map]
      rfl
    rw [h1, h2, sum_reflect _ hre, sum_reflect _ him]

theorem sumAbsSq_grover_step (f : ℕ → Bool) (v : List Amp) :
    sumAbsSq (grover_step f v) = sumAbsSq v := by
  rw [grover_step, sumAbsSq_diffuser, sumAbsSq_oracle]

theorem sumAbsSq_iterate (f : ℕ → Bool) (k : ℕ) (v : List Amp) :
    sumAbsSq ((grover_step f)^[k] v) = sumAbsSq v := by
  induction k with
  | zero => rfl
  | succ k ih => rw [Function.iterate_succ_apply', sumAbsSq_grover_step, ih]

theorem sumAbsSq_initial (N : ℕ) : sumAbsSq (initial_state N) = N := by
  rw [sumAbsSq, initial_state, List.map_replicate, List.sum_replicate]
  simp [Amp.absSq]

theorem sum_get_probabilities (g : Grover) :
    g.get_probabilities.sum = sumAbsSq g.state_vector / (g.num_states : ℚ) := by
  have h := sum_map_div (g.state_vector.map Amp.absSq) (g.num_states : ℚ)
  rw [List.map_map] at h
  rw [Grover.get_probabilities, sumAbsSq]
  exact h

/-! ### Helper lemmas: argmax -/

theorem argmax_lt_length (l : List ℚ) (h : l ≠ []) : argmax l < l.length := by
  induction l with
  | nil => exact absurd rfl h
  | cons x rest ih =>
      by_cases hc : rest.all (fun y => decide (y ≤ x)) = true
      · simp [argmax, hc]
      · have hrest : rest ≠ [] := by
          intro he
          subst he
          simp at hc
        have := ih hrest
        simp only [argmax, hc, if_false, Bool.false_eq_true, List.length_cons]
        omega

theorem argmax_spec (l : List ℚ) (hm : argmax l < l.length) :
    (∀ i (hi : i < l.length), l[i] ≤ l[argmax l]) ∧
    (∀ j (hj2 : j < l.length), j < argmax l → l[j] < l[argmax l]) := by
  induction l with
  | nil => simp at hm
  | cons x rest ih =>
      by_cases hc : rest.all (fun y => decide (y ≤ x)) = true
      · have hz : argmax (x :: rest) = 0 := by simp [argmax, hc]
        constructor
        · intro i hi
          rcases i with _ | i2
          · simp [hz]
          · have hi2 : i2 < rest.length := by simpa using hi
            simp only [hz, List.getElem_cons_zero, List.getElem_cons_succ]
            have hmem : rest[i2] ∈ rest := List.getElem_mem _
            have := List.all_eq_true.mp hc _ hmem
            simpa using this
        · intro j hj2 hj
          rw [hz] at hj
          omega
      · have hs : argmax (x :: rest) = argmax rest + 1 := by simp [argmax, hc]
        have hm2 : argmax rest < rest.length := by
          rw [hs] at hm
          simpa using hm
        obtain ⟨ihle, ihlt⟩ := ih hm2
        have hx : x < rest[argmax rest] := by
          have hne : ¬ ∀ y ∈ rest, y ≤ x := fun hall =>
            hc (List.all_eq_true.mpr fun y hy => by simpa using hall y hy)
          push_neg at hne
          obtain ⟨y, hy, hyx⟩ := hne
          obtain ⟨iy, hiy, hye⟩ := List.getElem_of_mem hy
          calc x < y := hyx
            _ = rest[iy] := hye.symm
            _ ≤ rest[argmax rest] := ihle iy hiy
        constructor
        · intro i hi
          rcases i with _ | i2
          · simp only [hs, List.getElem_cons_zero, List.getElem_cons_succ]
            exact le_of_lt hx
          · simp only [hs, List.getElem_cons_succ]
            exact ihle i2 (by simpa using hi)
        · intro j hj2 hj
          rcases j with _ | j2
          · simp only [hs, List.getElem_cons_zero, List.getElem_cons_succ]
            exact hx
          · simp only [hs, List.getElem_cons_succ]
            exact ihlt j2 (by simpa using hj2) (by omega)

/-! ### Helper lemmas: constructor and run reductions -/

theorem init_natCast_ok (n : ℕ) (hn : 0 < n) (f : ℕ → Bool) :
    Grover.init (n : ℚ) (OracleArg.callableFn f)
      = Except.ok ⟨n, 2 ^ n, f, initial_state (2 ^ n)⟩ := by
  have h1 : ¬(((n : ℚ)).den ≠ 1 ∨ ((n : ℚ)) ≤ 0) := by
    push_neg
    refine ⟨Rat.den_natCast n, by exact_mod_cast hn⟩
  rw [Grover.init, if_neg h1]
  simp

theorem run_algorithm_none (g : Grover) :
    g.run_algorithm none =
      (Except.ok (g.run_exact (optimal_iterations g.num_states)).1,
       (g.run_exact (optimal_iterations g.num_states)).2) := rfl

theorem run_algorithm_some_nat (g : Grover) (k : ℕ) :
    g.run_algorithm (some (k : ℚ)) =
      (Except.ok (g.run_exact k).1, (g.run_exact k).2) := by
  have h1 : ¬(((k : ℚ)).den ≠ 1 ∨ ((k : ℚ)) < 0) := by
    push_neg
    refine ⟨Rat.den_natCast k, by positivity⟩
  rw [Grover.run_algorithm, if_neg h1]
  simp

theorem optimal_iterations_four : optimal_iterations 4 = 1 := by
  rw [optimal_iterations]
  have h4 : Real.sqrt ((4 : ℕ) : ℝ) = 2 := by
    rw [show ((4 : ℕ) : ℝ) = 2 ^ 2 by norm_num]
    exact Real.sqrt_sq (by norm_num)
  rw [h4, show Real.pi / 4 * 2 = Real.pi / 2 by ring]
  have hlo : (1 : ℝ) ≤ Real.pi / 2 := by
    have := Real.pi_gt_three
    linarith
  have hhi : Real.pi / 2 < 2 := by
    have := Real.pi_lt_four
    linarith
  rw [Nat.floor_eq_iff (by linarith)]
  constructor
  · exact_mod_cast hlo
  · push_cast
    linarith

/-- A concrete marking predicate (marked index 2) used by the witnesses. -/
def testOracleInt : ℕ → Bool := fun i => (i : ℤ) == 2

/-- The `Grover` object for 2 qubits with `testOracleInt`, as built by
`Grover.init`. -/
def testGrover : Grover := ⟨2, 4, testOracleInt, initial_state 4⟩

/-- The `Grover` object for 3 qubits with `testOracleInt`, as built by
`Grover.init`. -/
def testGrover3 : Grover := ⟨3, 8, testOracleInt, initial_state 8⟩

@[simp] theorem Amp.neg_neg (a : Amp) : -(-a) = a := by
  ext <;> simp

theorem oracleGo_involution (f : ℕ → Bool) (i : ℕ) (v : List Amp) :
    oracleGo f i (oracleGo f i v) = v := by
  induction v generalizing i with
  | nil => rfl
  | cons a rest ih =>
      by_cases h : f i <;> simp [oracleGo, h, ih]

/-! ### Claim theorems -/

/-- C10: the oracle is an involution — for every state vector and every
pure deterministic predicate, applying the oracle twice with the same
predicate restores every amplitude to its original value exactly. -/
theorem claim_C10_oracle_involution (f : ℕ → Bool) (v : List Amp) :
    Grover.oracle f (Grover.oracle f v) = v :=
  oracleGo_involution f 0 v

/-- C8: atomicity of a failed run — calling `run_algorithm` with a
supplied iteration count that is negative or not an integer fails with
`InvalidArgument` (`ValueError`), and the `Grover` object (in particular
its state vector) is exactly the same after the failed call as before
it. -/
theorem claim_C8_run_invalid_atomic (g : Grover) (q : ℚ)
    (h : q.den ≠ 1 ∨ q < 0) :
    g.run_algorithm (some q) = (Except.error GroverError.valueError, g) := by
  rw [Grover.run_algorithm, if_pos h]

/-- Witness for C8 at `q = -1` on the 2-qubit instance. -/
theorem claim_C8_witness :
    ((-1 : ℚ).den ≠ 1 ∨ (-1 : ℚ) < 0) ∧
      testGrover.run_algorithm (some (-1))
        = (Except.error GroverError.valueError, testGrover) :=
  ⟨Or.inr (by norm_num),
   claim_C8_run_invalid_atomic testGrover (-1) (Or.inr (by norm_num))⟩

/-- C9: the oracle factory fails with `InvalidArgument` exactly when the
marked index is outside `[0, spaceSize)`; for every in-range marked
index the returned predicate answers true for an index `i` exactly when
`i` equals the marked index. -/
theorem claim_C9_oracle_factory (m N : ℤ) :
    ((∃ e, example_oracle_factory m N = .error e) ↔ (m < 0 ∨ N ≤ m)) ∧
    (∀ f, example_oracle_factory m N = .ok f →
      (0 ≤ m ∧ m < N) ∧ ∀ i : ℕ, f i = true ↔ (i : ℤ) = m) := by
  by_cases h : 0 ≤ m ∧ m < N
  · rw [example_oracle_factory, if_neg (not_not_intro h)]
    refine ⟨⟨fun ⟨e, he⟩ => by simp at he, fun hor => by omega⟩, ?_⟩
    rintro f hf
    injection hf with hf
    subst hf
    exact ⟨h, fun i => by simp⟩
  · rw [example_oracle_factory, if_pos h]
    refine ⟨⟨fun _ => by omega, fun _ => ⟨_, rfl⟩⟩, ?_⟩
    rintro f hf
    simp at hf

/-- Witness for C9 at marked index 2, space size 4. -/
theorem claim_C9_witness :
    example_oracle_factory 2 4 = Except.ok testOracleInt ∧
      ((0 ≤ (2:ℤ) ∧ (2:ℤ) < 4) ∧ ∀ i : ℕ, testOracleInt i = true ↔ (i : ℤ) = 2) :=
  ⟨rfl, (claim_C9_oracle_factory 2 4).2 testOracleInt rfl⟩

/-- C7: construction fails with `InvalidArgument` exactly when the qubit
count is non-positive or not integral, or the supplied oracle is not
callable (the non-callable failure happens at construction time, i.e.
`Grover.init` itself returns the error); for every positive integer
qubit count with a callable predicate, construction succeeds with
`num_states = 2 ^ qubitCount`. -/
theorem claim_C7_init_validation :
    (∀ (q : ℚ) (a : OracleArg),
        (∃ e, Grover.init q a = .error e) ↔
          (q.den ≠ 1 ∨ q ≤ 0 ∨ a = OracleArg.nonCallable)) ∧
    (∀ n : ℕ, 0 < n → ∀ f : ℕ → Bool,
        ∃ g, Grover.init (n : ℚ) (.callableFn f) = .ok g ∧ g.num_states = 2 ^ n) := by
  constructor
  · intro q a
    by_cases hq : q.den ≠ 1 ∨ q ≤ 0
    · rw [Grover.init.eq_def, if_pos hq]
      exact ⟨fun _ => by tauto, fun _ => ⟨_, rfl⟩⟩
    · rw [Grover.init.eq_def, if_neg hq]
      push_neg at hq
      cases a with
      | nonCallable => exact ⟨fun _ => Or.inr (Or.inr rfl), fun _ => ⟨_, rfl⟩⟩
      | callableFn f =>
          constructor
          · rintro ⟨e, he⟩
            simp at he
          · rintro (h1 | h2 | h3)
            · exact absurd hq.1 h1
            · exact absurd h2 (not_le.mpr hq.2)
            · exact absurd h3 (by simp)
  · intro n hn f
    exact ⟨_, init_natCast_ok n hn f, rfl⟩

/-- Witness for C7: construction succeeds on 2 qubits with the concrete
predicate, with `num_states = 4`. -/
theorem claim_C7_witness :
    (0 < 2) ∧ ∃ g, Grover.init ((2:ℕ) : ℚ) (.callableFn testOracleInt) = .ok g ∧
      g.num_states = 2 ^ 2 :=
  ⟨by norm_num, claim_C7_init_validation.2 2 (by norm_num) testOracleInt⟩

/-- C1: norm invariance — for every qubit count `n ≥ 1`, every pure
deterministic marking predicate and every iteration count `k ≥ 0`, after
running `k` oracle-then-diffuser pairs on the initial uniform state
vector the sum over all indices of `|amplitude_i|²` equals `1` within
`1e-9` (here: exactly, hence within the tolerance). -/
theorem claim_C1_norm_invariance (n : ℕ) (hn : 1 ≤ n) (f : ℕ → Bool) (k : ℕ)
    (g : Grover) (hg : Grover.init (n : ℚ) (.callableFn f) = .ok g) :
    |((g.run_algorithm (some (k : ℚ))).2.get_probabilities).sum - 1|
      ≤ 1 / 1000000000 := by
  rw [init_natCast_ok n hn f] at hg
  injection hg with hg
  subst hg
  rw [run_algorithm_some_nat]
  have hsum :
      ((Grover.run_exact ⟨n, 2 ^ n, f, initial_state (2 ^ n)⟩ k).2.get_probabilities).sum
        = 1 := by
    rw [sum_get_probabilities]
    simp only [Grover.run_exact]
    rw [sumAbsSq_iterate, sumAbsSq_initial]
    have hns : ((2 ^ n : ℕ) : ℚ) ≠ 0 := by positivity
    exact div_self hns
  rw [hsum]
  norm_num

/-- Witness for C1 at `n = 2`, `k = 3`. -/
theorem claim_C1_witness :
    (1 ≤ 2) ∧
      |((testGrover.run_algorithm (some ((3:ℕ) : ℚ))).2.get_probabilities).sum - 1|
        ≤ 1 / 1000000000 :=
  ⟨by norm_num, claim_C1_norm_invariance 2 (by norm_num) testOracleInt 3 testGrover rfl⟩

/-- C4: for every qubit count `n ≥ 1`, after construction and a run with
0 iterations (no oracle or diffuser application), every entry of the
probability distribution equals `1/2^n` within `1e-9` (here: exactly). -/
theorem claim_C4_uniform_zero (n : ℕ) (hn : 1 ≤ n) (f : ℕ → Bool) (g : Grover)
    (hg : Grover.init (n : ℚ) (.callableFn f) = .ok g) (i : ℕ) (hi : i < 2 ^ n) :
    ∃ p, ((g.run_algorithm (some ((0:ℕ) : ℚ))).2.get_probabilities)[i]? = some p ∧
      |p - 1 / (2 ^ n : ℚ)| ≤ 1 / 1000000000 := by
  rw [init_natCast_ok n hn f] at hg
  injection hg with hg
  subst hg
  rw [run_algorithm_some_nat]
  refine ⟨1 / (2 ^ n : ℚ), ?_, by norm_num⟩
  simp only [Grover.run_exact, Function.iterate_zero_apply, Grover.get_probabilities,
    initial_state, List.map_replicate]
  rw [List.getElem?_replicate]
  rw [if_pos hi]
  simp [Amp.absSq]

/-- Witness for C4 at `n = 2`, entry `i = 1`. -/
theorem claim_C4_witness :
    (1 ≤ 2) ∧ (1 < 2 ^ 2) ∧
      ∃ p, ((testGrover.run_algorithm (some ((0:ℕ) : ℚ))).2.get_probabilities)[1]?
          = some p ∧ |p - 1 / (2 ^ 2 : ℚ)| ≤ 1 / 1000000000 :=
  ⟨by norm_num, by norm_num,
   claim_C4_uniform_zero 2 (by norm_num) testOracleInt testGrover rfl 1 (by norm_num)⟩

/-- C6: the measured index returned by a run is a deterministic argmax
over the probability distribution with ties broken by the lowest index:
every probability is at most the probability at the measured index, and
every probability strictly before the measured index is strictly
smaller. -/
theorem claim_C6_measure_argmax (g : Grover) (k : ℕ) (h : g.state_vector ≠ []) :
    (g.run_algorithm (some (k : ℚ))).1
        = Except.ok (argmax ((g.run_exact k).2.get_probabilities)) ∧
    argmax ((g.run_exact k).2.get_probabilities)
        < ((g.run_exact k).2.get_probabilities).length ∧
    (∀ i (hi : i < ((g.run_exact k).2.get_probabilities).length)
        (hm : argmax ((g.run_exact k).2.get_probabilities)
          < ((g.run_exact k).2.get_probabilities).length),
      ((g.run_exact k).2.get_probabilities)[i]
        ≤ ((g.run_exact k).2.get_probabilities)[argmax ((g.run_exact k).2.get_probabilities)]) ∧
    (∀ j (hj2 : j < ((g.run_exact k).2.get_probabilities).length)
        (hm : argmax ((g.run_exact k).2.get_probabilities)
          < ((g.run_exact k).2.get_probabilities).length),
      j < argmax ((g.run_exact k).2.get_probabilities) →
      ((g.run_exact k).2.get_probabilities)[j]
        < ((g.run_exact k).2.get_probabilities)[argmax ((g.run_exact k).2.get_probabilities)]) := by
  have hlen : ((g.run_exact k).2.get_probabilities).length = g.state_vector.length := by
    simp only [Grover.run_exact, Grover.get_probabilities, List.length_map]
    exact length_iterate_grover _ _ _
  have hne : (g.run_exact k).2.get_probabilities ≠ [] := by
    intro he
    rw [he] at hlen
    exact h (List.length_eq_zero.mp hlen.symm)
  have hm := argmax_lt_length _ hne
  refine ⟨?_, hm, fun i hi _ => (argmax_spec _ hm).1 i hi,
    fun j hj2 _ hj => (argmax_spec _ hm).2 j hj2 hj⟩
  rw [run_algorithm_some_nat]
  rfl

/-- Witness for C6 on the 2-qubit instance with one iteration. -/
theorem claim_C6_witness :
    testGrover.state_vector ≠ [] ∧
      ((testGrover.run_algorithm (some ((1:ℕ) : ℚ))).1
          = Except.ok (argmax ((testGrover.run_exact 1).2.get_probabilities)) ∧
        argmax ((testGrover.run_exact 1).2.get_probabilities)
          < ((testGrover.run_exact 1).2.get_probabilities).length ∧
        (∀ i (hi : i < ((testGrover.run_exact 1).2.get_probabilities).length)
            (hm : argmax ((testGrover.run_exact 1).2.get_probabilities)
              < ((testGrover.run_exact 1).2.get_probabilities).length),
          ((testGrover.run_exact 1).2.get_probabilities)[i]
            ≤ ((testGrover.run_exact 1).2.get_probabilities)[argmax ((testGrover.run_exact 1).2.get_probabilities)]) ∧
        (∀ j (hj2 : j < ((testGrover.run_exact 1).2.get_probabilities).length)
            (hm : argmax ((testGrover.run_exact 1).2.get_probabilities)
              < ((testGrover.run_exact 1).2.get_probabilities).length),
          j < argmax ((testGrover.run_exact 1).2.get_probabilities) →
          ((testGrover.run_exact 1).2.get_probabilities)[j]
            < ((testGrover.run_exact 1).2.get_probabilities)[argmax ((testGrover.run_exact 1).2.get_probabilities)])) :=
  ⟨by simp [testGrover, initial_state], claim_C6_measure_argmax testGrover 1 (by simp [testGrover, initial_state])⟩

/-- C3: for `n = 3` qubits (`N = 8`), marked index 2 and exactly one
supplied iteration (sub-optimal), the probability of index 2 in the
final distribution equals `0.78125` within `1e-4` (here: exactly,
`25/32`). -/
theorem claim_C3_suboptimal_probability (f : ℕ → Bool) (g : Grover)
    (hf : example_oracle_factory 2 8 = .ok f)
    (hg : Grover.init ((3:ℕ) : ℚ) (.callableFn f) = .ok g) :
    ∃ p, ((g.run_algorithm (some ((1:ℕ) : ℚ))).2.get_probabilities)[2]? = some p ∧
      |p - (0.78125 : ℚ)| ≤ 1 / 10000 := by
  rw [show example_oracle_factory 2 8
      = Except.ok (fun i : ℕ => (i : ℤ) == 2) from rfl] at hf
  injection hf with hf
  subst hf
  rw [init_natCast_ok 3 (by norm_num)] at hg
  injection hg with hg
  subst hg
  rw [run_algorithm_some_nat]
  refine ⟨25/32, ?_, by norm_num⟩
  norm_num [Grover.run_exact, grover_step, Grover.oracle, oracleGo, Grover.diffuser,
    Grover.get_probabilities, initial_state, Amp.absSq, List.replicate,
    List.getElem?_cons_zero, List.getElem?_cons_succ]

/-- Witness for C3 on the concrete 3-qubit instance. -/
theorem claim_C3_witness :
    example_oracle_factory 2 8 = Except.ok testOracleInt ∧
      Grover.init ((3:ℕ) : ℚ) (.callableFn testOracleInt) = Except.ok testGrover3 ∧
      ∃ p, ((testGrover3.run_algorithm (some ((1:ℕ) : ℚ))).2.get_probabilities)[2]?
          = some p ∧ |p - (0.78125 : ℚ)| ≤ 1 / 10000 :=
  ⟨rfl, rfl, claim_C3_suboptimal_probability testOracleInt testGrover3 rfl rfl⟩

/-- C2: for `n = 2` qubits (`N = 4`) and every marked index
`m ∈ {0,1,2,3}`, running with the iteration count omitted (so the
optimal count `⌊π/4·√4⌋ = 1` is used) on the oracle produced by the
factory for `m` returns measured index `m`, and the probability of `m`
in the final distribution exceeds `0.9`. -/
theorem claim_C2_optimal_two_qubits (m : ℕ) (hm : m < 4) (f : ℕ → Bool) (g : Grover)
    (hf : example_oracle_factory (m : ℤ) 4 = .ok f)
    (hg : Grover.init ((2:ℕ) : ℚ) (.callableFn f) = .ok g) :
    (g.run_algorithm none).1 = Except.ok m ∧
    ∃ p, ((g.run_algorithm none).2.get_probabilities)[m]? = some p ∧ (9:ℚ)/10 < p := by
  rw [example_oracle_factory,
    if_neg (not_not_intro ⟨by positivity, by exact_mod_cast hm⟩)] at hf
  injection hf with hf
  subst hf
  rw [init_natCast_ok 2 (by norm_num)] at hg
  injection hg with hg
  subst hg
  rw [run_algorithm_none]
  have hopt : optimal_iterations
      (Grover.mk 2 (2 ^ 2) (fun i : ℕ => (i : ℤ) == (m : ℤ))
        (initial_state (2 ^ 2))).num_states = 1 := optimal_iterations_four
  rw [hopt]
  interval_cases m <;>
    exact ⟨by norm_num [Grover.run_exact, grover_step, Grover.oracle, oracleGo,
        Grover.diffuser, Grover.get_probabilities, initial_state, Amp.absSq,
        List.replicate, argmax],
      1, by norm_num [Grover.run_exact, grover_step, Grover.oracle, oracleGo,
        Grover.diffuser, Grover.get_probabilities, initial_state, Amp.absSq,
        List.replicate, argmax], by norm_num⟩

/-- Witness for C2 at marked index 2. -/
theorem claim_C2_witness :
    (2 < 4) ∧
      (testGrover.run_algorithm none).1 = Except.ok 2 ∧
      ∃ p, ((testGrover.run_algorithm none).2.get_probabilities)[2]?
          = some p ∧ (9:ℚ)/10 < p :=
  ⟨by norm_num,
   claim_C2_optimal_two_qubits 2 (by norm_num) testOracleInt testGrover rfl rfl⟩

/-- C5: when `run_algorithm` is called with the iteration count omitted,
it executes exactly `⌊π/4·√N⌋` repetitions (`N = 2^n`), each repetition
one oracle application followed by one diffuser application threaded on
the same state vector, in that order, and measures the result. -/
theorem claim_C5_default_iterations (n : ℕ) (hn : 0 < n) (f : ℕ → Bool) (g : Grover)
    (hg : Grover.init ((n:ℕ) : ℚ) (.callableFn f) = .ok g) :
    g.run_algorithm none =
      (Except.ok (argmax (Grover.get_probabilities
          { g with state_vector :=
              ((fun v => Grover.diffuser (Grover.oracle f v))^[⌊Real.pi / 4 * Real.sqrt ((2 ^ n : ℕ) : ℝ)⌋₊]
                g.state_vector) })),
       { g with state_vector :=
           ((fun v => Grover.diffuser (Grover.oracle f v))^[⌊Real.pi / 4 * Real.sqrt ((2 ^ n : ℕ) : ℝ)⌋₊]
             g.state_vector) }) := by
  rw [init_natCast_ok n hn f] at hg
  injection hg with hg
  subst hg
  rfl

/-- Witness for C5 at `n = 2` on the concrete instance. -/
theorem claim_C5_witness :
    (0 < 2) ∧
      testGrover.run_algorithm none =
        (Except.ok (argmax (Grover.get_probabilities
            { testGrover with state_vector :=
                ((fun v => Grover.diffuser (Grover.oracle testOracleInt v))^[⌊Real.pi / 4 * Real.sqrt ((2 ^ 2 : ℕ) : ℝ)⌋₊]
                  testGrover.state_vector) })),
         { testGrover with state_vector :=
             ((fun v => Grover.diffuser (Grover.oracle testOracleInt v))^[⌊Real.pi / 4 * Real.sqrt ((2 ^ 2 : ℕ) : ℝ)⌋₊]
               testGrover.state_vector) }) :=
  ⟨by norm_num,
   claim_C5_default_iterations 2 (by norm_num) testOracleInt testGrover rfl⟩

end QuantumAgri
